import Mathlib

/-!
Verification development for the static memory-pool optimization pass
(`src/Transform/OptimizeMemoryPools.cpp`).

The IR is shallowly embedded: an operation is a node carrying a result
identifier (`id`, one result per operation; values are identified with
the id of their defining operation), an operation kind, a list of operand
value identifiers, the argument identifiers of its nested block (if any),
and the list of operations of that nested block.  A function body is a
top-level block.  `Block::walk` of MLIR visits operations of nested
regions before the region-holding operation itself (post-order); `walkOps`
mirrors that order.
-/

namespace MemPool

/-- Operation kinds relevant to the pass.  `alloc` carries the declared
byte size of the rank-1 byte memory pool (`memPoolShape[0]`); `getref`
carries the byte footprint of its result (`getMemRefSizeInBytes` of the
result type).  A `getref`'s operands are `[mempool, offset]`.  A `load`'s
operand 0 is the loaded memref; a `store`'s operand 0 is the stored value
and operand 1 the memref.  `constOp` carries the constant value.
`iterate` is the loop-carrying `krnl.iterate`; `other` stands for any
other computation. -/
inductive MKind : Type where
  | alloc : Int → MKind
  | getref : Int → MKind
  | load : MKind
  | affineLoad : MKind
  | store : MKind
  | affineStore : MKind
  | constOp : Int → MKind
  | iterate : MKind
  | other : MKind
  deriving DecidableEq, Repr

/-- An operation's own data: result id (one result per operation; a value
is identified with the id of its defining operation), kind, and operand
value ids. -/
structure TOp : Type where
  id : Nat
  kind : MKind
  operands : List Nat
  deriving DecidableEq, Repr

/-- A block's operation list.  Each entry carries the operation's data,
the block-argument ids of its nested block, the nested block itself, and
the remaining operations of the current block. -/
inductive Forest : Type where
  | nil : Forest
  | cons (d : TOp) (bargs : List Nat) (body : Forest) (rest : Forest) :
      Forest
  deriving DecidableEq, Repr

/-- The mempool operand of a `krnl.getref` (its operand 0). -/
def TOp.mempoolOp (op : TOp) : Nat := op.operands.getD 0 0

/-- The offset operand of a `krnl.getref` (its operand 1).  The source
compares offsets as SSA `Value`s, so an offset is identified by the id of
the defining constant, not by its integer value. -/
def TOp.offsetOp (op : TOp) : Nat := op.operands.getD 1 0

/-- The byte footprint attached to a `getref` result type
(`getMemRefSizeInBytes`); 0 for other operations. -/
def TOp.footprint (op : TOp) : Int :=
  match op.kind with
  | .getref fp => fp
  | _ => 0

def isGetRefk (op : TOp) : Bool :=
  match op.kind with
  | .getref _ => true
  | _ => false

def isAllock (op : TOp) : Bool :=
  match op.kind with
  | .alloc _ => true
  | _ => false

/-- `isLoad`: a `LoadOp` or `AffineLoadOp`. -/
def isLoadk (op : TOp) : Bool :=
  op.kind == .load || op.kind == .affineLoad

/-- `isStore`: a `StoreOp` or `AffineStoreOp`. -/
def isStorek (op : TOp) : Bool :=
  op.kind == .store || op.kind == .affineStore

/-- A function: the arguments and operations of its top-level block. -/
structure Func : Type where
  fargs : List Nat
  body : Forest

/-- Flatten a block in `Block::walk` order: operations of nested regions
are visited before the operation holding them (MLIR post-order walk). -/
def walkOps : Forest → List TOp
  | .nil => []
  | .cons d _ b rest => walkOps b ++ [d] ++ walkOps rest

/-- The walk of the function's top-level block (`getTopBlock` resolves to
this block for every operation of the function). -/
def walkF (f : Func) : List TOp := walkOps f.body

/-- Whether an operation with result id `t` occurs in the forest. -/
def containsId : Forest → Nat → Bool
  | .nil, _ => false
  | .cons d _ b rest, t => d.id == t || containsId b t || containsId rest t

/-- `Value::getDefiningOp`: the operation whose result is `v` (none for
block arguments and unknown values). -/
def defOf (f : Func) (v : Nat) : Option TOp :=
  (walkF f).find? (fun op => op.id == v)

/-- Look an operation up by its result id. -/
def opById (f : Func) (i : Nat) : Option TOp :=
  (walkF f).find? (fun op => op.id == i)

/-- Block-argument ids of the blocks strictly enclosing the operation with
id `t`, outermost first (the ancestors' nested-block arguments). -/
def pathArgs : Forest → Nat → List Nat
  | .nil, _ => []
  | .cons d bs b rest, t =>
      if d.id == t then []
      else if containsId b t then bs ++ pathArgs b t
      else pathArgs rest t

/-- The strictly enclosing operations of the operation with id `t`,
outermost first. -/
def pathOps : Forest → Nat → List TOp
  | .nil, _ => []
  | .cons d _ b rest, t =>
      if d.id == t then []
      else if containsId b t then d :: pathOps b t
      else pathOps rest t

/-- `isBlockArgument(getRef, operand)`: `operand` is an argument of one of
the blocks from the block of the operation with id `gid` up to (and
including) the function's top-level block. -/
def isBlockArg (f : Func) (gid : Nat) (v : Nat) : Bool :=
  f.fargs.contains v || (pathArgs f.body gid).contains v

/-- Operations sitting directly in a block (not inside nested regions). -/
def directOps : Forest → List TOp
  | .nil => []
  | .cons d _ _ rest => d :: directOps rest

/-- `opInTopLevelBlock`: the operation's block hangs directly off the
`FuncOp`. -/
def opInTopLevelBlock (f : Func) (oid : Nat) : Bool :=
  (directOps f.body).any (fun op => op.id == oid)

/-- `getAllocGetRefNum`: number of `krnl.getref` operations whose mempool
operand is the alloc's result. -/
def getAllocGetRefNum (f : Func) (allocRes : Nat) : Int :=
  ((walkF f).filter
    (fun op => isGetRefk op && op.operands.getD 0 0 == allocRes)).length

/-- Accumulator loop of `getAllocGetRefTotalSize`: the walk skips a
`krnl.getref` if some already-seen getref has the same offset (the seen
list is not restricted to the current pool, mirroring the source), adds
the footprint if the getref's mempool operand is the alloc's result, and
records the getref as seen. -/
def totalGo (allocRes : Nat) : List TOp → List TOp → Int
  | [], _ => 0
  | op :: rest, seen =>
      if isGetRefk op then
        if seen.any (fun g => g.offsetOp == op.offsetOp) then
          totalGo allocRes rest seen
        else
          (if op.mempoolOp == allocRes then op.footprint else 0) +
            totalGo allocRes rest (seen ++ [op])
      else totalGo allocRes rest seen

/-- `getAllocGetRefTotalSize`: total size in bytes used by the getref
operations associated with a memory pool. -/
def getAllocGetRefTotalSize (f : Func) (allocRes : Nat) : Int :=
  totalGo allocRes (walkF f) []

/-- Accumulator loop of `getAllDistinctGetRefsForAlloc`.  The dedup test
mirrors the source literally: `op.mempool() == getRef.mempool() &&
op.offset() == op.offset()` — the second conjunct compares the candidate's
offset with itself. -/
def distinctGo (allocRes : Nat) : List TOp → List TOp → List TOp
  | [], acc => acc
  | op :: rest, acc =>
      if isGetRefk op then
        if acc.any (fun g => op.mempoolOp == g.mempoolOp &&
            op.offsetOp == op.offsetOp) then
          distinctGo allocRes rest acc
        else if op.mempoolOp == allocRes then
          distinctGo allocRes rest (acc ++ [op])
        else distinctGo allocRes rest acc
      else distinctGo allocRes rest acc

/-- `getAllDistinctGetRefsForAlloc`: list of distinct `krnl.getref`
operations using the memory pool. -/
def getAllDistinctGetRefsForAlloc (f : Func) (allocRes : Nat) : List TOp :=
  distinctGo allocRes (walkF f) []

/-- `getAllGetRefWithSameOffset`: all `krnl.getref` operations sharing the
given getref's memory pool and offset (compared as SSA values). -/
def getAllGetRefWithSameOffset (f : Func) (g : TOp) : List TOp :=
  (walkF f).filter (fun op =>
    isGetRefk op && op.mempoolOp == g.mempoolOp && op.offsetOp == g.offsetOp)

/-- `getGetRefStores`: store operations with the getref's result among
their operands; `StoreOp`s are collected by the first walk, then
`AffineStoreOp`s by the second. -/
def getGetRefStores (f : Func) (g : TOp) : List TOp :=
  (walkF f).filter (fun op => op.kind == .store && op.operands.contains g.id)
    ++ (walkF f).filter (fun op =>
        op.kind == .affineStore && op.operands.contains g.id)

/-- The operands of a non-leaf operation that get pushed to the work
queue: those that are not arguments of a block enclosing the getref with
id `gid`. -/
def pushedOperands (f : Func) (gid : Nat) (op : TOp) : List Nat :=
  op.operands.filter (fun w => !isBlockArg f gid w)

/-- Test done when the dependency walk reaches a load: the loaded memref
operand is not an enclosing-block argument and its defining operation is
one of the getrefs of `firstList` (the `dyn_cast<KrnlGetRefOp>` of the
defining operation compared against each list entry). -/
def loadHitsGroup (f : Func) (gid : Nat) (firstList : List TOp)
    (op : TOp) : Bool :=
  let m := op.operands.getD 0 0
  !isBlockArg f gid m &&
    (match defOf f m with
     | some d => isGetRefk d && firstList.any (fun g => g.id == d.id)
     | none => false)

/-- Number of operations of the function not yet marked visited. -/
def unvisitedCount (f : Func) (vis : List Nat) : Nat :=
  ((walkF f).filter (fun o => !vis.contains o.id)).length

theorem filter_imp_length_le {α : Type} (p q : α → Bool)
    (himp : ∀ a, p a = true → q a = true) :
    ∀ l : List α, (l.filter p).length ≤ (l.filter q).length := by
  intro l
  induction l with
  | nil => simp
  | cons a tl ih =>
      by_cases hp : p a = true
      · have hq := himp a hp
        simp [List.filter_cons, hp, hq, Nat.succ_le_succ ih]
      · have hp' : p a = false := by
          cases h : p a
          · rfl
          · exact absurd h hp
        cases hq : q a
        · simpa [List.filter_cons, hp', hq] using ih
        · simp only [List.filter_cons, hp', hq, List.length_cons]
          exact Nat.le_succ_of_le ih

theorem filter_imp_length_lt {α : Type} (p q : α → Bool)
    (himp : ∀ a, p a = true → q a = true) (x : α)
    (hpx : p x = false) (hqx : q x = true) :
    ∀ l : List α, x ∈ l → (l.filter p).length < (l.filter q).length := by
  intro l
  induction l with
  | nil => intro h; cases h
  | cons a tl ih =>
      intro hmem
      rcases List.mem_cons.mp hmem with h | h
      · subst h
        simp only [List.filter_cons, hpx, hqx, List.length_cons]
        exact Nat.lt_succ_of_le (filter_imp_length_le p q himp tl)
      · by_cases hp : p a = true
        · have hq := himp a hp
          simp only [List.filter_cons, hp, hq, List.length_cons]
          exact Nat.succ_lt_succ (ih h)
        · have hp' : p a = false := by
            cases hc : p a
            · rfl
            · exact absurd hc hp
          cases hq : q a
          · simpa [List.filter_cons, hp', hq] using ih h
          · simp only [List.filter_cons, hp', hq, List.length_cons]
            exact Nat.lt_succ_of_lt (ih h)

theorem unvisitedCount_lt (f : Func) (vis : List Nat) (op : TOp)
    (hmem : op ∈ walkF f) (hnv : vis.contains op.id = false) :
    unvisitedCount f (op.id :: vis) < unvisitedCount f vis := by
  unfold unvisitedCount
  refine filter_imp_length_lt (fun o => !(op.id :: vis).contains o.id)
      (fun o => !vis.contains o.id) ?_ op ?_ ?_ (walkF f) hmem
  · intro a ha
    simp only [List.contains_cons, Bool.not_eq_true', Bool.or_eq_false_iff]
      at ha
    simpa using ha.2
  · simp
  · simpa using hnv

theorem defOf_mem {f : Func} {v : Nat} {op : TOp}
    (h : defOf f v = some op) : op ∈ walkF f :=
  List.mem_of_find?_eq_some h

/-- Work-queue loop of `getRefUsesAreDisjoint` for one store: pop the
front value; if it has a defining operation not seen before, mark it
visited, then either test a load against `firstList` (returning `false`
on a hit, which makes the store's analysis fail) or push the non-leaf
operation's non-block-argument operands to the back of the queue. -/
def wlRun (f : Func) (gid : Nat) (firstList : List TOp) :
    List Nat → List Nat → Bool
  | [], _ => true
  | v :: rest, vis =>
      match hdef : defOf f v with
      | none => wlRun f gid firstList rest vis
      | some op =>
          if hvis : vis.contains op.id then
            wlRun f gid firstList rest vis
          else if isLoadk op then
            if loadHitsGroup f gid firstList op then false
            else wlRun f gid firstList rest (op.id :: vis)
          else
            wlRun f gid firstList (rest ++ pushedOperands f gid op)
              (op.id :: vis)
  termination_by wl vis => (unvisitedCount f vis, wl.length)
  decreasing_by
  · exact Prod.Lex.right _ (Nat.lt_succ_self _)
  · exact Prod.Lex.right _ (Nat.lt_succ_self _)
  · exact Prod.Lex.left _ _ (unvisitedCount_lt f vis op (defOf_mem hdef)
      (by simpa using hvis))
  · exact Prod.Lex.left _ _ (unvisitedCount_lt f vis op (defOf_mem hdef)
      (by simpa using hvis))

/-- `getRefUsesAreDisjoint`: for every store whose operands mention the
second getref, run the backward dependency walk seeded with the stored
value (`store->getOperands()[0]`); all walks must stay clear of
`firstGetRefList`. -/
def getRefUsesAreDisjoint (f : Func) (firstList : List TOp)
    (second : TOp) : Bool :=
  (getGetRefStores f second).all (fun st =>
    wlRun f second.id firstList [st.operands.getD 0 0] [])

/-- `getRefUsesAreMutuallyDisjoint`: the disjointness check in both
directions. -/
def getRefUsesAreMutuallyDisjoint (f : Func)
    (firstList secondList : List TOp) : Bool :=
  secondList.all (fun g => getRefUsesAreDisjoint f firstList g) &&
    firstList.all (fun g => getRefUsesAreDisjoint f secondList g)

/-- `isLoadStoreForGetRef`: a load whose memref operand (operand 0) is the
getref's result, or a store whose memref operand (operand 1) is. -/
def isLoadStoreForGetRef (g : TOp) (op : TOp) : Bool :=
  (isLoadk op && op.operands.getD 0 0 == g.id) ||
    (isStorek op && op.operands.getD 1 0 == g.id)

/-- `getLiveRangeLastOp`: the last load/store of the getref in the walk of
the top-level block; `none` when the getref has no load/store at all (the
source then dereferences the null result unconditionally). -/
def getLiveRangeLastOp (f : Func) (g : TOp) : Option TOp :=
  ((walkF f).filter (fun op => isLoadStoreForGetRef g op)).getLast?

/-- `getLiveRangeFirstOp`: the first load/store of the getref in the walk
of the top-level block. -/
def getLiveRangeFirstOp (f : Func) (g : TOp) : Option TOp :=
  ((walkF f).filter (fun op => isLoadStoreForGetRef g op)).head?

/-- `operationInLiveRange`: membership of an operation (by identity) in a
live-range operation list. -/
def operationInLiveRange (oid : Nat) (lr : List TOp) : Bool :=
  lr.any (fun op => op.id == oid)

/-- `getLiveRange`: walk of the top-level block collecting every operation
from the getref's first load/store through its last one; the collecting
flag is set when a load/store for the getref is met and cleared at the
last load/store. -/
def getLiveRange (f : Func) (g : TOp) : List TOp :=
  ((walkF f).foldl
    (fun (st : List TOp × Bool) op =>
      let inR := if isLoadStoreForGetRef g op && !st.2 then true else st.2
      let acc := if inR then st.1 ++ [op] else st.1
      (acc,
        if (match getLiveRangeLastOp f g with
            | some l => op.id == l.id
            | none => false) then false else inR))
    ([], false)).1

/-- Walk step of `opBeforeOp`: the state tracks `beforeOpIsBefore` and
`beforeOpFound`. -/
def obStep (beforeId afterId : Nat) (st : Bool × Bool) (op : TOp) :
    Bool × Bool :=
  if op.id == beforeId then (st.1, true)
  else if op.id == afterId && !st.2 then (false, st.2)
  else st

/-- `opBeforeOp`: true unless `afterId` is visited in the block's walk
while `beforeId` has not been visited yet. -/
def opBeforeOp (w : List TOp) (beforeId afterId : Nat) : Bool :=
  (w.foldl (obStep beforeId afterId) (true, false)).1

/-- `liveRangeIsContained`: the live range lies between `firstId` and
`lastId` — its first operation comes after `firstId` and its last comes
before `lastId` in the walk of the top-level block.  An empty live range
is undefined behavior in the source (it indexes element 0 before its
size assertion); the embedding yields false there. -/
def liveRangeIsContained (f : Func) (firstId lastId : Nat)
    (lr : List TOp) : Bool :=
  match lr.head?, lr.getLast? with
  | some a, some b =>
      opBeforeOp (walkF f) firstId a.id && opBeforeOp (walkF f) b.id lastId
  | _, _ => false

/-- `getOutermostLoop`: walking the enclosing-block chain from the
operation up to the function, the last `krnl.iterate` ancestor seen — the
iterate nearest the function root; `none` when no ancestor is a loop. -/
def getOutermostLoop (f : Func) (oid : Nat) : Option Nat :=
  (((pathOps f.body oid).filter
      (fun op => op.kind == MKind.iterate)).head?).map TOp.id

/-- `checkOuterLoopsMatch`: both operations have an outermost enclosing
loop and the two loops are the same operation; false when either has
none. -/
def checkOuterLoopsMatch (f : Func) (oid1 oid2 : Nat) : Bool :=
  match getOutermostLoop f oid1, getOutermostLoop f oid2 with
  | some l1, some l2 => l1 == l2
  | _, _ => false

/-- Third and fourth guarded reports of `liveRangesInSameLoopNest`.
`case3Fires` decides the candidate boundary pair (the second range's last
operation, the live range's first operation).  Its first conjunct mirrors
the source's `lastOpInTopLevelBlock`, which is computed from `firstOp`
(`opInTopLevelBlock(firstOp)` appears twice in the source). -/
def case3Fires (f : Func) (firstId lastId lrFirstId : Nat) : Bool :=
  !opInTopLevelBlock f firstId && !opInTopLevelBlock f lrFirstId &&
    checkOuterLoopsMatch f lastId lrFirstId

/-- Fourth report of `liveRangesInSameLoopNest`: the candidate boundary
pair (the second range's first operation, the live range's last
operation). -/
def case4Fires (f : Func) (firstId lrLastId : Nat) : Bool :=
  !opInTopLevelBlock f firstId && !opInTopLevelBlock f lrLastId &&
    checkOuterLoopsMatch f firstId lrLastId

/-- `liveRangesInSameLoopNest`: loop-nest-aware intersection of the live
range `lr` with the range bounded by `firstId`/`lastId`.  Mirrors the
source, including its reuse of `firstOp` for `lastOpInTopLevelBlock`. -/
def liveRangesInSameLoopNest (f : Func) (firstId lastId : Nat)
    (lr : List TOp) : Bool :=
  let firstOpInTop := opInTopLevelBlock f firstId
  let lastOpInTop := opInTopLevelBlock f firstId
  if firstOpInTop && lastOpInTop then false
  else
    match lr.head?, lr.getLast? with
    | some lrF, some lrL =>
        if opInTopLevelBlock f lrF.id && opInTopLevelBlock f lrL.id then
          false
        else if case3Fires f firstId lastId lrF.id then true
        else if case4Fires f firstId lrL.id then true
        else false
    | _, _ => false

/-- `checkLiveRangesIntersect`: for each getref of the first list, fetch
its live range and compare it against the extremities of each getref of
the second list through the three rules (membership, containment, shared
loop nest).  When a getref of the second list has no load/store at all the
source would dereference null extremities; the embedding returns false
for that pair. -/
def checkLiveRangesIntersect (f : Func) (l1 l2 : List TOp) : Bool :=
  l1.any (fun g1 =>
    let lr := getLiveRange f g1
    l2.any (fun g2 =>
      match getLiveRangeFirstOp f g2, getLiveRangeLastOp f g2 with
      | some a, some b =>
          if operationInLiveRange a.id lr ||
              operationInLiveRange b.id lr then true
          else if liveRangeIsContained f a.id b.id lr then true
          else liveRangesInSameLoopNest f a.id b.id lr
      | _, _ => false))

/-- One iteration of the reuser loop of
`KrnlOptimizeStaticMemoryPools::matchAndRewrite`: skip a candidate that is
already a valid slot reuser or that already shares the first getref's
offset; otherwise expand both sides to their co-located groups, append the
already-accepted reusers to the first list, and accept the candidate's
group exactly when the uses are mutually disjoint and the live ranges do
not intersect. -/
def processCandidate (f : Func) (first : TOp) (vs : List TOp)
    (c : TOp) : List TOp :=
  if vs.any (fun r => r.id == c.id) then vs
  else if first.offsetOp == c.offsetOp then vs
  else
    let firstList := getAllGetRefWithSameOffset f first ++ vs
    let secondList := getAllGetRefWithSameOffset f c
    if !getRefUsesAreMutuallyDisjoint f firstList secondList then vs
    else if checkLiveRangesIntersect f firstList secondList then vs
    else vs ++ secondList

/-- The reuser loop over all candidates, starting from an empty
`validSlotReusers` list. -/
def collectSlotReusers (f : Func) (first : TOp)
    (cands : List TOp) : List TOp :=
  cands.foldl (processCandidate f first) []

/-- The final rewrite of the merge rule: each valid slot reuser is
replaced by a new getref on the same static memory pool at the first
getref's offset (`rewriter.create<KrnlGetRefOp>(loc, type, staticMemPool,
firstGetRef.offset())`).  Each entry is (old result id, new mempool
operand, new offset operand). -/
def mergeRedirects (f : Func) (first : TOp)
    (cands : List TOp) : List (Nat × Nat × Nat) :=
  (collectSlotReusers f first cands).map
    (fun r => (r.id, first.mempoolOp, first.offsetOp))

/-- Outcome of `KrnlCompactStaticMemoryPools::matchAndRewrite`: no match,
the `assert(usedMemory <= memPoolShape[0])` failing (the
`InternalConsistencyError` that terminates compilation), or a rewritten
function. -/
inductive CompactResult : Type where
  | noMatch : CompactResult
  | assertFail : CompactResult
  | rewritten : Func → CompactResult

/-- New offsets assigned by the compaction loop: one fresh constant per
entry of `getAllDistinctGetRefsForAlloc`, at the running byte offset,
which then advances by the representative's footprint.  Entries are
(representative, fresh offset value id, offset byte value). -/
def compactAssignments (f : Func) (allocRes : Nat) (freshBase : Nat) :
    List (TOp × Nat × Int) :=
  ((getAllDistinctGetRefsForAlloc f allocRes).foldl
    (fun (st : List (TOp × Nat × Int) × Nat × Int) rep =>
      (st.1 ++ [(rep, st.2.1, st.2.2)], st.2.1 + 1, st.2.2 + rep.footprint))
    ([], freshBase + 1, 0)).1

/-- The fresh offset id of the group a getref belongs to, if its group's
representative got one (`getAllGetRefWithSameOffset` membership: same
mempool and same offset operands). -/
def assignedOffset (assigns : List (TOp × Nat × Int)) (op : TOp) :
    Option Nat :=
  (assigns.find? (fun a =>
    op.mempoolOp == a.1.mempoolOp && op.offsetOp == a.1.offsetOp)).map
    (fun a => a.2.1)

/-- Apply a node-local rewrite everywhere in a forest, preserving the
block structure. -/
def mapForest (t : TOp → TOp) : Forest → Forest
  | .nil => .nil
  | .cons d bs b rest => .cons (t d) bs (mapForest t b) (mapForest t rest)

/-- Node-local effect of the compaction rewrite.  The old pool is replaced
by one of `used` bytes and every use of its result is rebound to the
replacement (`rewriter.replaceOp`); the embedding keeps the result ids of
the replaced alloc and getrefs, standing for that rebinding.  A getref of
a re-emitted group is replaced in place (the new getref is moved before
the old one) with the fresh offset; other getrefs keep their operands. -/
def compactNode (allocRes : Nat) (used : Int)
    (assigns : List (TOp × Nat × Int)) (op : TOp) : TOp :=
  if op.id == allocRes && isAllock op then
    ⟨op.id, .alloc used, op.operands⟩
  else if isGetRefk op then
    match assignedOffset assigns op with
    | some newOff => ⟨op.id, op.kind, [op.mempoolOp, newOff]⟩
    | none => op
  else op

/-- The compaction rewrite: re-emit each distinct group's getrefs on the
replacement pool at the fresh running offsets and shrink the pool to
`used` bytes. -/
def compactRewrite (f : Func) (allocRes : Nat) (used : Int)
    (freshBase : Nat) : Func :=
  { fargs := f.fargs
    body := mapForest
      (compactNode allocRes used (compactAssignments f allocRes freshBase))
      f.body }

/-- `KrnlCompactStaticMemoryPools::matchAndRewrite`.  The pool must be a
rank-1 byte MemRef of constant shape (the model's `alloc` kind carries
exactly that shape), be used by at least one getref, and sit in the
top-level block.  Then `usedMemory` is computed, the assertion
`usedMemory <= memPoolShape[0]` is checked, an exact fit is no match, and
otherwise the pool is compacted. -/
def krnlCompactStaticMemoryPools (f : Func) (allocOp : TOp)
    (freshBase : Nat) : CompactResult :=
  match allocOp.kind with
  | .alloc size =>
      if getAllocGetRefNum f allocOp.id < 1 then .noMatch
      else if !opInTopLevelBlock f allocOp.id then .noMatch
      else
        let used := getAllocGetRefTotalSize f allocOp.id
        if size < used then .assertFail
        else if used == size then .noMatch
        else .rewritten (compactRewrite f allocOp.id used freshBase)
  | _ => .noMatch

/-- Declarative dependency relation computed by the work-queue walk: the
value transitively depends, through operand chains of non-leaf
operations, on a load whose memref operand's immediate defining operation
is one of `firstList`'s getrefs (`loadHitsGroup`). -/
inductive ReadsFromGroup (f : Func) (gid : Nat) (firstList : List TOp) :
    Nat → Prop where
  | load (v : Nat) (op : TOp) :
      defOf f v = some op → isLoadk op = true →
      loadHitsGroup f gid firstList op = true →
      ReadsFromGroup f gid firstList v
  | step (v w : Nat) (op : TOp) :
      defOf f v = some op → isLoadk op = false →
      w ∈ op.operands → isBlockArg f gid w = false →
      ReadsFromGroup f gid firstList w →
      ReadsFromGroup f gid firstList v

/-- Specification-side notion (§4.2) of a value being transitively — not
merely syntactically — a member of a slot group: its defining-operation
chain, followed through operands, reaches one of the group's getrefs. -/
inductive ResolvesToGroup (f : Func) (grp : List TOp) : Nat → Prop where
  | here (v : Nat) (d : TOp) :
      defOf f v = some d → isGetRefk d = true →
      grp.any (fun g => g.id == d.id) = true → ResolvesToGroup f grp v
  | through (v w : Nat) (d : TOp) :
      defOf f v = some d → w ∈ d.operands → ResolvesToGroup f grp w →
      ResolvesToGroup f grp v

/-- Specification-side dependency relation (§4.2): as `ReadsFromGroup`,
except that membership of a load's memref operand in the opposing group
is transitive (`ResolvesToGroup`), the way the spec words it. -/
inductive SpecReadsFromGroup (f : Func) (gid : Nat) (grp : List TOp) :
    Nat → Prop where
  | load (v : Nat) (op : TOp) :
      defOf f v = some op → isLoadk op = true →
      isBlockArg f gid (op.operands.getD 0 0) = false →
      ResolvesToGroup f grp (op.operands.getD 0 0) →
      SpecReadsFromGroup f gid grp v
  | step (v w : Nat) (op : TOp) :
      defOf f v = some op → isLoadk op = false →
      w ∈ op.operands → isBlockArg f gid w = false →
      SpecReadsFromGroup f gid grp w →
      SpecReadsFromGroup f gid grp v

/-- Specification-side total (§4.1 `totalUsedBytes`): iterate the pool's
own getrefs, keep one representative per distinct offset of that pool,
and sum the representatives' footprints. -/
def specGo (allocRes : Nat) : List TOp → List Nat → Int
  | [], _ => 0
  | op :: rest, offs =>
      if isGetRefk op && op.mempoolOp == allocRes then
        if offs.contains op.offsetOp then specGo allocRes rest offs
        else op.footprint + specGo allocRes rest (offs ++ [op.offsetOp])
      else specGo allocRes rest offs

/-- Specification-side sum of footprints over one representative per
distinct `(pool, offset)` group of the pool. -/
def specDistinctSum (f : Func) (allocRes : Nat) : Int :=
  specGo allocRes (walkF f) []

/-- A value already marked visited: it has a defining operation whose
result id is in the visited set. -/
def visitedVal (f : Func) (vis : List Nat) (w : Nat) : Prop :=
  ∃ op, defOf f w = some op ∧ op.id ∈ vis

/-- Invariant of the work-queue loop: every visited operation is a load
that misses the group, or a non-leaf operation whose pushed operands are
queued, already visited, or leaves. -/
def visInv (f : Func) (gid : Nat) (A : List TOp)
    (vis wl : List Nat) : Prop :=
  ∀ op : TOp, defOf f op.id = some op → op.id ∈ vis →
    (isLoadk op = true → loadHitsGroup f gid A op = false) ∧
    (isLoadk op = false → ∀ w ∈ pushedOperands f gid op,
      w ∈ wl ∨ visitedVal f vis w ∨ defOf f w = none)

/-- A region-free operation. -/
def opn (i : Nat) (k : MKind) (os : List Nat) : TOp := ⟨i, k, os⟩

/-- A block of region-free operations. -/
def flatForest : List TOp → Forest
  | [] => .nil
  | d :: rest => .cons d [] .nil (flatForest rest)

/-- Pool of 64 bytes with two slot groups: getref 10 at offset value 2
(byte 0, footprint 16) and getref 11 at offset value 3 (byte 16,
footprint 16). -/
def exA : Func :=
  ⟨[], flatForest [opn 1 (.alloc 64) [], opn 2 (.constOp 0) [],
    opn 3 (.constOp 16) [], opn 10 (.getref 16) [1, 2],
    opn 11 (.getref 16) [1, 3]]⟩

def exAalloc : TOp := opn 1 (.alloc 64) []
def exAg10 : TOp := opn 10 (.getref 16) [1, 2]
def exAg11 : TOp := opn 11 (.getref 16) [1, 3]

/-- The function obtained by letting the compaction rule fire on `exA`. -/
def exAh : Func := compactRewrite exA 1 32 100

/-- Two pools sharing the offset constant 3: pool 2's getref 20 walks
before pool 1's getref 10. -/
def exF5 : Func :=
  ⟨[], flatForest [opn 1 (.alloc 64) [], opn 2 (.alloc 64) [],
    opn 3 (.constOp 0) [], opn 20 (.getref 8) [2, 3],
    opn 10 (.getref 16) [1, 3]]⟩

/-- Pool 1 (64 bytes) with groups at offset values 3 (footprint 16) and 4
(footprint 8), and pool 2 with a getref at the shared offset constant 3
walking first. -/
def exF8 : Func :=
  ⟨[], flatForest [opn 1 (.alloc 64) [], opn 2 (.alloc 100) [],
    opn 3 (.constOp 0) [], opn 4 (.constOp 16) [],
    opn 20 (.getref 4) [2, 3], opn 10 (.getref 16) [1, 3],
    opn 11 (.getref 8) [1, 4]]⟩

def exF8alloc : TOp := opn 1 (.alloc 64) []

/-- The function obtained by letting the compaction rule fire once on pool
1 of `exF8`. -/
def exF8h : Func := compactRewrite exF8 1 (getAllocGetRefTotalSize exF8 1) 100

def exF8halloc : TOp := opn 1 (.alloc 8) []

/-- A getref with no load or store at all. -/
def exF7 : Func :=
  ⟨[], flatForest [opn 1 (.alloc 16) [], opn 2 (.constOp 0) [],
    opn 10 (.getref 16) [1, 2], opn 30 .other []]⟩

def exF7g : TOp := opn 10 (.getref 16) [1, 2]

/-- A store into slot 11 whose stored value is a load through operation
20, a non-getref view of slot 10: the load's memref operand resolves to
slot 10 transitively but not syntactically. -/
def exF3 : Func :=
  ⟨[], flatForest [opn 1 (.alloc 64) [], opn 2 (.constOp 0) [],
    opn 3 (.constOp 16) [], opn 10 (.getref 16) [1, 2],
    opn 11 (.getref 16) [1, 3], opn 20 .other [10], opn 30 .load [20],
    opn 40 .store [30, 11]]⟩

def exF3gA : TOp := opn 10 (.getref 16) [1, 2]
def exF3gB : TOp := opn 11 (.getref 16) [1, 3]

/-- A block holding a single operation, id 50. -/
def exF10 : Func := ⟨[], flatForest [opn 50 .other []]⟩

/-- Top-level operations 5 and 8 around a loop 6 with body operation 7. -/
def exC6 : Func :=
  ⟨[], .cons (opn 5 .other []) [] .nil
    (.cons (opn 6 .iterate []) [100] (flatForest [opn 7 .other []])
      (.cons (opn 8 .other []) [] .nil .nil))⟩

/-- Pool of 1 byte with a single getref of footprint 2. -/
def exC9 : Func :=
  ⟨[], flatForest [opn 1 (.alloc 1) [], opn 2 (.constOp 0) [],
    opn 10 (.getref 2) [1, 2]]⟩

def exC9alloc : TOp := opn 1 (.alloc 1) []

theorem wlRun_nil (f : Func) (gid : Nat) (A : List TOp) (vis : List Nat) :
    wlRun f gid A [] vis = true := by
  rw [wlRun]

theorem wlRun_cons_none (f : Func) (gid : Nat) (A : List TOp)
    (v : Nat) (rest vis : List Nat) (h : defOf f v = none) :
    wlRun f gid A (v :: rest) vis = wlRun f gid A rest vis := by
  rw [wlRun, h]

theorem wlRun_cons_vis (f : Func) (gid : Nat) (A : List TOp)
    (v : Nat) (rest vis : List Nat) (op : TOp)
    (h : defOf f v = some op) (hv : vis.contains op.id = true) :
    wlRun f gid A (v :: rest) vis = wlRun f gid A rest vis := by
  have hv' : op.id ∈ vis := by simpa using hv
  rw [wlRun, h]
  simp [hv']

theorem wlRun_cons_load (f : Func) (gid : Nat) (A : List TOp)
    (v : Nat) (rest vis : List Nat) (op : TOp)
    (h : defOf f v = some op) (hv : vis.contains op.id = false)
    (hl : isLoadk op = true) :
    wlRun f gid A (v :: rest) vis =
      (!loadHitsGroup f gid A op && wlRun f gid A rest (op.id :: vis)) := by
  have hv' : op.id ∉ vis := by simpa using hv
  rw [wlRun, h]
  simp [hv', hl]

theorem wlRun_cons_push (f : Func) (gid : Nat) (A : List TOp)
    (v : Nat) (rest vis : List Nat) (op : TOp)
    (h : defOf f v = some op) (hv : vis.contains op.id = false)
    (hl : isLoadk op = false) :
    wlRun f gid A (v :: rest) vis =
      wlRun f gid A (rest ++ pushedOperands f gid op) (op.id :: vis) := by
  have hv' : op.id ∉ vis := by simpa using hv
  rw [wlRun, h]
  simp [hv', hl]

theorem reads_def_some {f : Func} {gid : Nat} {A : List TOp} {v : Nat}
    (h : ReadsFromGroup f gid A v) : ∃ op, defOf f v = some op := by
  cases h with
  | load v op hdef _ _ => exact ⟨op, hdef⟩
  | step v w op hdef _ _ _ _ => exact ⟨op, hdef⟩

theorem defOf_self {f : Func} {v : Nat} {op : TOp}
    (h : defOf f v = some op) : defOf f op.id = some op := by
  have hp := List.find?_some h
  have hid : op.id = v := by simpa using hp
  rw [hid]
  exact h

theorem mem_pushedOperands {f : Func} {gid : Nat} {op : TOp} {w : Nat}
    (hw : w ∈ op.operands) (hb : isBlockArg f gid w = false) :
    w ∈ pushedOperands f gid op := by
  unfold pushedOperands
  exact List.mem_filter.mpr ⟨hw, by simp [hb]⟩

theorem wlRun_false_sound (f : Func) (gid : Nat) (A : List TOp) :
    ∀ wl vis, wlRun f gid A wl vis = false →
      ∃ v ∈ wl, ReadsFromGroup f gid A v := by
  intro wl vis
  induction wl, vis using wlRun.induct f gid A with
  | case1 vis =>
      intro h
      rw [wlRun_nil] at h
      cases h
  | case2 v rest vis hdef ih =>
      intro h
      rw [wlRun_cons_none _ _ _ _ _ _ hdef] at h
      obtain ⟨v', hv', hb⟩ := ih h
      exact ⟨v', List.mem_cons_of_mem _ hv', hb⟩
  | case3 v rest vis op hdef hvis ih =>
      intro h
      rw [wlRun_cons_vis _ _ _ _ _ _ _ hdef hvis] at h
      obtain ⟨v', hv', hb⟩ := ih h
      exact ⟨v', List.mem_cons_of_mem _ hv', hb⟩
  | case4 v rest vis op hdef hvis hl hhit =>
      intro h
      exact ⟨v, List.mem_cons_self _ _, .load v op hdef hl hhit⟩
  | case5 v rest vis op hdef hvis hl hhit ih =>
      intro h
      rw [wlRun_cons_load _ _ _ _ _ _ _ hdef (by simpa using hvis) hl] at h
      have hh : loadHitsGroup f gid A op = false := by simpa using hhit
      rw [hh] at h
      simp only [Bool.not_false, Bool.true_and] at h
      obtain ⟨v', hv', hb⟩ := ih h
      exact ⟨v', List.mem_cons_of_mem _ hv', hb⟩
  | case6 v rest vis op hdef hvis hl ih =>
      intro h
      have hl' : isLoadk op = false := by simpa using hl
      rw [wlRun_cons_push _ _ _ _ _ _ _ hdef (by simpa using hvis) hl'] at h
      obtain ⟨v', hv', hb⟩ := ih h
      rcases List.mem_append.mp hv' with hm | hm
      · exact ⟨v', List.mem_cons_of_mem _ hm, hb⟩
      · have hw := List.mem_filter.mp hm
        have hbarg : isBlockArg f gid v' = false := by
          simpa using hw.2
        exact ⟨v, List.mem_cons_self _ _,
          .step v v' op hdef hl' hw.1 hbarg hb⟩

theorem not_reads_of_visited (f : Func) (gid : Nat) (A : List TOp)
    (vis : List Nat) (hinv : visInv f gid A vis []) :
    ∀ v, visitedVal f vis v → ¬ ReadsFromGroup f gid A v := by
  intro v hvv hbad
  induction hbad with
  | load v op hdef hl hhit =>
      obtain ⟨op', hdef', hmem⟩ := hvv
      rw [hdef] at hdef'
      cases hdef'
      exact absurd hhit (by simp [(hinv op (defOf_self hdef) hmem).1 hl])
  | step v w op hdef hl hw hbarg hbadW ih =>
      obtain ⟨op', hdef', hmem⟩ := hvv
      rw [hdef] at hdef'
      cases hdef'
      rcases (hinv op (defOf_self hdef) hmem).2 hl w
          (mem_pushedOperands hw hbarg) with h | h | h
      · cases h
      · exact ih h
      · obtain ⟨opw, hdw⟩ := reads_def_some hbadW
        rw [h] at hdw
        cases hdw

theorem wlRun_true_complete (f : Func) (gid : Nat) (A : List TOp) :
    ∀ wl vis, visInv f gid A vis wl → wlRun f gid A wl vis = true →
      (∀ v ∈ wl, ¬ ReadsFromGroup f gid A v) ∧
      (∀ v, visitedVal f vis v → ¬ ReadsFromGroup f gid A v) := by
  intro wl vis
  induction wl, vis using wlRun.induct f gid A with
  | case1 vis =>
      intro hinv _
      exact ⟨by simp, not_reads_of_visited f gid A vis hinv⟩
  | case2 v rest vis hdef ih =>
      intro hinv hrun
      rw [wlRun_cons_none _ _ _ _ _ _ hdef] at hrun
      have hinv' : visInv f gid A vis rest := by
        intro op hop hmem
        refine ⟨(hinv op hop hmem).1, fun hnl w hwp => ?_⟩
        rcases (hinv op hop hmem).2 hnl w hwp with h | h | h
        · rcases List.mem_cons.mp h with rfl | h'
          · exact Or.inr (Or.inr hdef)
          · exact Or.inl h'
        · exact Or.inr (Or.inl h)
        · exact Or.inr (Or.inr h)
      obtain ⟨h1, h2⟩ := ih hinv' hrun
      refine ⟨fun v' hv' => ?_, h2⟩
      rcases List.mem_cons.mp hv' with rfl | h'
      · intro hbad
        obtain ⟨op, hop⟩ := reads_def_some hbad
        rw [hdef] at hop
        cases hop
      · exact h1 v' h'
  | case3 v rest vis op hdef hvis ih =>
      intro hinv hrun
      rw [wlRun_cons_vis _ _ _ _ _ _ _ hdef hvis] at hrun
      have hvm : op.id ∈ vis := by simpa using hvis
      have hinv' : visInv f gid A vis rest := by
        intro op2 hop2 hmem2
        refine ⟨(hinv op2 hop2 hmem2).1, fun hnl w hwp => ?_⟩
        rcases (hinv op2 hop2 hmem2).2 hnl w hwp with h | h | h
        · rcases List.mem_cons.mp h with rfl | h'
          · exact Or.inr (Or.inl ⟨op, hdef, hvm⟩)
          · exact Or.inl h'
        · exact Or.inr (Or.inl h)
        · exact Or.inr (Or.inr h)
      obtain ⟨h1, h2⟩ := ih hinv' hrun
      refine ⟨fun v' hv' => ?_, h2⟩
      rcases List.mem_cons.mp hv' with rfl | h'
      · exact h2 v' ⟨op, hdef, hvm⟩
      · exact h1 v' h'
  | case4 v rest vis op hdef hvis hl hhit =>
      intro hinv hrun
      rw [wlRun_cons_load _ _ _ _ _ _ _ hdef (by simpa using hvis) hl,
        hhit] at hrun
      simp at hrun
  | case5 v rest vis op hdef hvis hl hhit ih =>
      intro hinv hrun
      have hh : loadHitsGroup f gid A op = false := by simpa using hhit
      rw [wlRun_cons_load _ _ _ _ _ _ _ hdef (by simpa using hvis) hl,
        hh] at hrun
      simp only [Bool.not_false, Bool.true_and] at hrun
      have hinv' : visInv f gid A (op.id :: vis) rest := by
        intro op2 hop2 hmem2
        rcases List.mem_cons.mp hmem2 with heq | hmem2'
        · have heq2 : op2 = op := by
            rw [heq, defOf_self hdef] at hop2
            exact (Option.some.injEq _ _ ▸ hop2).symm
          subst heq2
          exact ⟨fun _ => hh, fun hnl => absurd hl (by simp [hnl])⟩
        · refine ⟨(hinv op2 hop2 hmem2').1, fun hnl w hwp => ?_⟩
          rcases (hinv op2 hop2 hmem2').2 hnl w hwp with h | h | h
          · rcases List.mem_cons.mp h with rfl | h'
            · exact Or.inr (Or.inl ⟨op, hdef, List.mem_cons_self _ _⟩)
            · exact Or.inl h'
          · obtain ⟨o, ho1, ho2⟩ := h
            exact Or.inr (Or.inl ⟨o, ho1, List.mem_cons_of_mem _ ho2⟩)
          · exact Or.inr (Or.inr h)
      obtain ⟨h1, h2⟩ := ih hinv' hrun
      refine ⟨fun v' hv' => ?_, fun v' hv' => ?_⟩
      · rcases List.mem_cons.mp hv' with rfl | h'
        · exact h2 v' ⟨op, hdef, List.mem_cons_self _ _⟩
        · exact h1 v' h'
      · obtain ⟨o, ho1, ho2⟩ := hv'
        exact h2 v' ⟨o, ho1, List.mem_cons_of_mem _ ho2⟩
  | case6 v rest vis op hdef hvis hl ih =>
      intro hinv hrun
      have hl' : isLoadk op = false := by simpa using hl
      rw [wlRun_cons_push _ _ _ _ _ _ _ hdef (by simpa using hvis) hl']
        at hrun
      have hinv' : visInv f gid A (op.id :: vis)
          (rest ++ pushedOperands f gid op) := by
        intro op2 hop2 hmem2
        rcases List.mem_cons.mp hmem2 with heq | hmem2'
        · have heq2 : op2 = op := by
            rw [heq, defOf_self hdef] at hop2
            exact (Option.some.injEq _ _ ▸ hop2).symm
          subst heq2
          refine ⟨fun hlt => absurd hlt (by simp [hl']), fun _ w hwp => ?_⟩
          exact Or.inl (List.mem_append_right _ hwp)
        · refine ⟨(hinv op2 hop2 hmem2').1, fun hnl w hwp => ?_⟩
          rcases (hinv op2 hop2 hmem2').2 hnl w hwp with h | h | h
          · rcases List.mem_cons.mp h with rfl | h'
            · exact Or.inr (Or.inl ⟨op, hdef, List.mem_cons_self _ _⟩)
            · exact Or.inl (List.mem_append_left _ h')
          · obtain ⟨o, ho1, ho2⟩ := h
            exact Or.inr (Or.inl ⟨o, ho1, List.mem_cons_of_mem _ ho2⟩)
          · exact Or.inr (Or.inr h)
      obtain ⟨h1, h2⟩ := ih hinv' hrun
      refine ⟨fun v' hv' => ?_, fun v' hv' => ?_⟩
      · rcases List.mem_cons.mp hv' with rfl | h'
        · exact h2 v' ⟨op, hdef, List.mem_cons_self _ _⟩
        · exact h1 v' (List.mem_append_left _ h')
      · obtain ⟨o, ho1, ho2⟩ := hv'
        exact h2 v' ⟨o, ho1, List.mem_cons_of_mem _ ho2⟩

theorem getRefUsesAreDisjoint_iff (f : Func) (A : List TOp) (g : TOp) :
    getRefUsesAreDisjoint f A g = true ↔
      ∀ st ∈ getGetRefStores f g,
        ¬ ReadsFromGroup f g.id A (st.operands.getD 0 0) := by
  unfold getRefUsesAreDisjoint
  rw [List.all_eq_true]
  constructor
  · intro h st hst hbad
    have hr := h st hst
    have hc := (wlRun_true_complete f g.id A [st.operands.getD 0 0] []
      (by intro op hop hmem; simp at hmem) hr).1
    exact hc _ (List.mem_singleton.mpr rfl) hbad
  · intro h st hst
    cases hr : wlRun f g.id A [st.operands.getD 0 0] [] with
    | true => rfl
    | false =>
        obtain ⟨v, hv, hbad⟩ := wlRun_false_sound f g.id A _ _ hr
        rw [List.mem_singleton] at hv
        subst hv
        exact absurd hbad (h st hst)

/-- C3 (amended): the mutual-disjointness check returns true iff no store
referencing a slot of group B stores a value that transitively depends,
through operand chains of non-leaf operations, on a load whose loaded
memory operand's immediate defining operation is one of group A's view
operations, and symmetrically; membership of the load's memory operand in
the opposing group is decided by the operand's immediate defining
operation being one of the group's view operations, not transitively. -/
theorem spec_C3 (f : Func) (A B : List TOp) :
    getRefUsesAreMutuallyDisjoint f A B = true ↔
      ((∀ g ∈ B, ∀ st ∈ getGetRefStores f g,
          ¬ ReadsFromGroup f g.id A (st.operands.getD 0 0)) ∧
       (∀ g ∈ A, ∀ st ∈ getGetRefStores f g,
          ¬ ReadsFromGroup f g.id B (st.operands.getD 0 0))) := by
  unfold getRefUsesAreMutuallyDisjoint
  rw [Bool.and_eq_true, List.all_eq_true, List.all_eq_true]
  constructor
  · rintro ⟨h1, h2⟩
    exact ⟨fun g hg => (getRefUsesAreDisjoint_iff f A g).1 (h1 g hg),
      fun g hg => (getRefUsesAreDisjoint_iff f B g).1 (h2 g hg)⟩
  · rintro ⟨h1, h2⟩
    exact ⟨fun g hg => (getRefUsesAreDisjoint_iff f A g).2 (h1 g hg),
      fun g hg => (getRefUsesAreDisjoint_iff f B g).2 (h2 g hg)⟩

/-- C3 (counterexample): in `exF3` the store into slot 11 stores a value
loaded through operation 20, a non-getref view whose operand chain
resolves to slot 10; the loaded memory operand is thus transitively a
member of the opposing group in the spec's sense, yet the code reports
the uses as mutually disjoint, because it only compares the operand's
immediate defining operation against the group. -/
theorem cex_C3 :
    getRefUsesAreMutuallyDisjoint exF3 [exF3gA] [exF3gB] = true ∧
    opn 40 .store [30, 11] ∈ getGetRefStores exF3 exF3gB ∧
    SpecReadsFromGroup exF3 exF3gB.id [exF3gA]
      ((opn 40 .store [30, 11]).operands.getD 0 0) := by
  refine ⟨?_, ?_, ?_⟩
  · have h30 : wlRun exF3 11 [exF3gA] [30] [] = true := by
      rw [wlRun_cons_load exF3 11 [exF3gA] 30 [] [] (opn 30 .load [20])
        rfl rfl rfl]
      rw [wlRun_nil]
      rfl
    have hB : getRefUsesAreDisjoint exF3 [exF3gA] exF3gB = true := by
      unfold getRefUsesAreDisjoint
      have hst : getGetRefStores exF3 exF3gB = [opn 40 .store [30, 11]] :=
        rfl
      rw [hst]
      simpa using h30
    have hA : getRefUsesAreDisjoint exF3 [exF3gB] exF3gA = true := by
      unfold getRefUsesAreDisjoint
      have hst : getGetRefStores exF3 exF3gA = [] := rfl
      rw [hst]
      rfl
    unfold getRefUsesAreMutuallyDisjoint
    simpa using ⟨hB, hA⟩
  · rw [show getGetRefStores exF3 exF3gB = [opn 40 .store [30, 11]] from rfl]
    exact List.mem_singleton.mpr rfl
  · refine SpecReadsFromGroup.load 30 (opn 30 .load [20]) rfl rfl rfl ?_
    refine ResolvesToGroup.through 20 10 (opn 20 .other [10]) rfl ?_ ?_
    · simp [opn, TOp.operands]
    · exact ResolvesToGroup.here 10 (opn 10 (.getref 16) [1, 2]) rfl rfl rfl

theorem foldl_obStep_fst (x y : Nat) :
    ∀ (w : List TOp), (∀ op ∈ w, op.id ≠ y) → ∀ st : Bool × Bool,
      st.1 = true → (w.foldl (obStep x y) st).1 = true := by
  intro w
  induction w with
  | nil => intro _ st h; simpa using h
  | cons op tl ih =>
      intro hy st hst
      rw [List.foldl_cons]
      refine ih (fun o ho => hy o (List.mem_cons_of_mem _ ho)) _ ?_
      have hne : (op.id == y) = false := by
        simpa using hy op (List.mem_cons_self _ _)
      cases hc : (op.id == x)
      · simp [obStep, hc, hne, hst]
      · simp [obStep, hc, hst]

theorem opBeforeOp_true_of_absent (w : List TOp) (x y : Nat)
    (hy : ∀ op ∈ w, op.id ≠ y) : opBeforeOp w x y = true := by
  unfold opBeforeOp
  exact foldl_obStep_fst x y w hy (true, false) rfl

/-- C10 (amended): `opBeforeOp(b, x, y)` returns true whenever `y` is
never visited in the traversal of `b` (including when `x` is absent too);
consequently `liveRangeIsContained(firstOp, lastOp, range)` reports
containment for every nonempty range whenever the range's first operation
does not occur in the top-level block's traversal and `lastOp` does not
occur either or comes after the range's last operation. -/
theorem spec_C10 (w : List TOp) (x y : Nat) (f : Func)
    (firstId lastId : Nat) (lr : List TOp) (a b : TOp)
    (hy : ∀ op ∈ w, op.id ≠ y)
    (hhead : lr.head? = some a) (hlast : lr.getLast? = some b)
    (hfr : ∀ op ∈ walkF f, op.id ≠ a.id)
    (hlst : (∀ op ∈ walkF f, op.id ≠ lastId) ∨
      opBeforeOp (walkF f) b.id lastId = true) :
    opBeforeOp w x y = true ∧
      liveRangeIsContained f firstId lastId lr = true := by
  refine ⟨opBeforeOp_true_of_absent w x y hy, ?_⟩
  unfold liveRangeIsContained
  rw [hhead, hlast]
  have h1 : opBeforeOp (walkF f) firstId a.id = true :=
    opBeforeOp_true_of_absent _ _ _ hfr
  have h2 : opBeforeOp (walkF f) b.id lastId = true := by
    rcases hlst with h | h
    · exact opBeforeOp_true_of_absent _ _ _ h
    · exact h
  simp [h1, h2]

/-- C10 (counterexample): in the block holding only operation 50, the id
99 is never visited, yet `opBeforeOp` with `beforeId = 99` and
`afterId = 50` returns false — the claim asserts it returns true whenever
the before-operation is never visited. -/
theorem cex_C10 :
    (∀ op ∈ walkF exF10, op.id ≠ 99) ∧
      opBeforeOp (walkF exF10) 99 50 = false := by
  exact ⟨by decide, by decide⟩

/-- Witness for `spec_C10` at a concrete input. -/
theorem wit_C10 :
    opBeforeOp (walkF exF10) 50 99 = true ∧
      liveRangeIsContained exF10 1 99 [opn 60 .other []] = true :=
  spec_C10 (walkF exF10) 50 99 exF10 1 99 [opn 60 .other []]
    (opn 60 .other []) (opn 60 .other []) (by decide) rfl rfl (by decide)
    (Or.inl (by decide))

theorem mem_walkOps_of_direct {op : TOp} :
    ∀ fr : Forest, op ∈ directOps fr → op ∈ walkOps fr := by
  intro fr
  induction fr with
  | nil => intro h; cases h
  | cons d bs b rest ihb ihr =>
      intro h
      rcases List.mem_cons.mp h with rfl | h'
      · simp [walkOps]
      · simp [walkOps, ihr h']

theorem containsId_iff (t : Nat) :
    ∀ fr : Forest, containsId fr t = true ↔ t ∈ (walkOps fr).map TOp.id := by
  intro fr
  induction fr with
  | nil => simp [containsId, walkOps]
  | cons d bs b rest ihb ihr =>
      simp [containsId, walkOps, ihb, ihr, Bool.or_eq_true]
      aesop

theorem pathOps_eq_nil (x : Nat) :
    ∀ fr : Forest, ((walkOps fr).map TOp.id).Nodup →
      (∃ op ∈ directOps fr, op.id = x) → pathOps fr x = [] := by
  intro fr
  induction fr with
  | nil =>
      intro _ h
      obtain ⟨op, hop, _⟩ := h
      cases hop
  | cons d bs b rest ihb ihr =>
      intro hnd hex
      by_cases hd : (d.id == x) = true
      · simp [pathOps, hd]
      · have hd' : (d.id == x) = false := by
          cases hc : (d.id == x)
          · rfl
          · exact absurd hc hd
        obtain ⟨op, hop, hopx⟩ := hex
        rcases List.mem_cons.mp hop with rfl | hop'
        · exact absurd (by simp [hopx]) hd
        · have hnd' : (((walkOps b ++ [d]) ++ walkOps rest).map
              TOp.id).Nodup := by
            simpa [walkOps] using hnd
          rw [List.map_append] at hnd'
          have hdisj := List.disjoint_of_nodup_append hnd'
          have hcb : containsId b x = false := by
            cases hc : containsId b x
            · rfl
            · exfalso
              have hxb : x ∈ (walkOps b).map TOp.id :=
                (containsId_iff x b).1 hc
              have hxr : x ∈ (walkOps rest).map TOp.id :=
                List.mem_map.mpr ⟨op, mem_walkOps_of_direct rest hop', hopx⟩
              exact hdisj (by
                rw [List.map_append]
                exact List.mem_append_left _ hxb) hxr
          have hndr : ((walkOps rest).map TOp.id).Nodup :=
            (List.nodup_append.mp hnd').2.1
          simp only [pathOps, hd', hcb, Bool.false_eq_true, if_false]
          exact ihr hndr ⟨op, hop', hopx⟩

theorem getOutermostLoop_none_of_top (f : Func)
    (hnd : ((walkF f).map TOp.id).Nodup) (x : Nat)
    (hx : opInTopLevelBlock f x = true) : getOutermostLoop f x = none := by
  have hex : ∃ op ∈ directOps f.body, op.id = x := by
    unfold opInTopLevelBlock at hx
    obtain ⟨op, hop, hbeq⟩ := List.any_eq_true.mp hx
    exact ⟨op, hop, by simpa using hbeq⟩
  unfold getOutermostLoop
  rw [pathOps_eq_nil x f.body hnd hex]
  rfl

theorem checkOuterLoopsMatch_false_left (f : Func) (x y : Nat)
    (h : getOutermostLoop f x = none) :
    checkOuterLoopsMatch f x y = false := by
  unfold checkOuterLoopsMatch
  rw [h]

/-- C6: in rule (3) of the live-range intersection check, a candidate
boundary pair with either side directly in the function's top-level block
is never reported as sharing a loop nest.  In particular, when the second
range's last operation is top-level, the case-3 pair (that operation, the
live range's first operation) cannot fire regardless of where the second
range's first operation sits — even though the source's
`lastOpInTopLevelBlock` guard mistakenly consults `firstOp`, the
outermost-loop lookup of a top-level operation is empty, so
`checkOuterLoopsMatch` still rejects the pair. -/
theorem spec_C6 (f : Func) (hnd : ((walkF f).map TOp.id).Nodup)
    (firstId lastId lrFirstId lrLastId : Nat) :
    ((opInTopLevelBlock f lastId = true ∨
        opInTopLevelBlock f lrFirstId = true) →
      case3Fires f firstId lastId lrFirstId = false) ∧
    ((opInTopLevelBlock f firstId = true ∨
        opInTopLevelBlock f lrLastId = true) →
      case4Fires f firstId lrLastId = false) := by
  constructor
  · rintro (h | h)
    · have hm := checkOuterLoopsMatch_false_left f lastId lrFirstId
        (getOutermostLoop_none_of_top f hnd lastId h)
      simp [case3Fires, hm]
    · simp [case3Fires, h]
  · rintro (h | h)
    · simp [case4Fires, h]
    · simp [case4Fires, h]

/-- Witness for `spec_C6` at a concrete input: operation 5 sits in the
top-level block of `exC6`. -/
theorem wit_C6 :
    ((opInTopLevelBlock exC6 5 = true ∨ opInTopLevelBlock exC6 7 = true) →
      case3Fires exC6 7 5 7 = false) ∧
    ((opInTopLevelBlock exC6 7 = true ∨ opInTopLevelBlock exC6 5 = true) →
      case4Fires exC6 7 5 = false) :=
  spec_C6 exC6 (by decide) 7 5 7 5

theorem totalGo_le_specGo (p : Nat) :
    ∀ (l : List TOp) (seen : List TOp) (offs : List Nat),
      (∀ op ∈ l, isGetRefk op = true → 0 ≤ op.footprint) →
      (∀ o ∈ offs, seen.any (fun g => g.offsetOp == o) = true) →
      totalGo p l seen ≤ specGo p l offs := by
  intro l
  induction l with
  | nil => intro seen offs _ _; simp [totalGo, specGo]
  | cons op rest ih =>
      intro seen offs hnn hinv
      have hnn' : ∀ o ∈ rest, isGetRefk o = true → 0 ≤ o.footprint :=
        fun o ho => hnn o (List.mem_cons_of_mem _ ho)
      have hfp : isGetRefk op = true → 0 ≤ op.footprint :=
        hnn op (List.mem_cons_self _ _)
      cases hg : isGetRefk op with
      | false =>
          have ttot : totalGo p (op :: rest) seen = totalGo p rest seen :=
            by simp [totalGo, hg]
          have tspec : specGo p (op :: rest) offs = specGo p rest offs :=
            by simp [specGo, hg]
          rw [ttot, tspec]
          exact ih seen offs hnn' hinv
      | true =>
          cases hsup : seen.any (fun g => g.offsetOp == op.offsetOp) with
          | true =>
              have ttot : totalGo p (op :: rest) seen =
                  totalGo p rest seen := by simp [totalGo, hg, hsup]
              rw [ttot]
              cases hown : (op.mempoolOp == p) with
              | false =>
                  have tspec : specGo p (op :: rest) offs =
                      specGo p rest offs := by simp [specGo, hg, hown]
                  rw [tspec]
                  exact ih seen offs hnn' hinv
              | true =>
                  by_cases hc : op.offsetOp ∈ offs
                  · have tspec : specGo p (op :: rest) offs =
                        specGo p rest offs := by
                      simp [specGo, hg, hown, hc]
                    rw [tspec]
                    exact ih seen offs hnn' hinv
                  · have tspec : specGo p (op :: rest) offs =
                        op.footprint +
                          specGo p rest (offs ++ [op.offsetOp]) := by
                      simp [specGo, hg, hown, hc]
                    rw [tspec]
                    have hinv2 : ∀ o ∈ offs ++ [op.offsetOp],
                        seen.any (fun g => g.offsetOp == o) = true := by
                      intro o ho
                      rcases List.mem_append.mp ho with h | h
                      · exact hinv o h
                      · rw [List.mem_singleton.mp h]
                        exact hsup
                    have h1 := ih seen (offs ++ [op.offsetOp]) hnn' hinv2
                    have h2 : (0 : Int) ≤ op.footprint := hfp hg
                    omega
          | false =>
              have hseen2 : ∀ o ∈ offs, (seen ++ [op]).any
                  (fun g => g.offsetOp == o) = true := by
                intro o ho
                rw [List.any_append]
                simp [hinv o ho]
              cases hown : (op.mempoolOp == p) with
              | false =>
                  have ttot : totalGo p (op :: rest) seen =
                      totalGo p rest (seen ++ [op]) := by
                    simp [totalGo, hg, hsup, hown]
                  have tspec : specGo p (op :: rest) offs =
                      specGo p rest offs := by simp [specGo, hg, hown]
                  rw [ttot, tspec]
                  exact ih (seen ++ [op]) offs hnn' hseen2
              | true =>
                  have hc : op.offsetOp ∉ offs := by
                    intro hmem
                    rw [hinv op.offsetOp hmem] at hsup
                    cases hsup
                  have ttot : totalGo p (op :: rest) seen =
                      op.footprint + totalGo p rest (seen ++ [op]) := by
                    simp [totalGo, hg, hsup, hown]
                  have tspec : specGo p (op :: rest) offs =
                      op.footprint +
                        specGo p rest (offs ++ [op.offsetOp]) := by
                    simp [specGo, hg, hown, hc]
                  rw [ttot, tspec]
                  have hinv3 : ∀ o ∈ offs ++ [op.offsetOp],
                      (seen ++ [op]).any (fun g => g.offsetOp == o)
                        = true := by
                    intro o ho
                    rcases List.mem_append.mp ho with h | h
                    · exact hseen2 o h
                    · rw [List.mem_singleton.mp h, List.any_append]
                      simp
                  have h1 := ih (seen ++ [op]) (offs ++ [op.offsetOp])
                    hnn' hinv3
                  omega

/-- C9 (amended): under the compaction preconditions alone (rank-1 byte
pool of constant size with at least one slot) `usedBytes` can exceed the
declared size and the assertion then aborts compilation; `usedBytes` is
bounded by the declared size whenever the pool invariant holds — the sum
of footprints over one representative per distinct `(pool, offset)` group
is at most the declared size — because `usedBytes` never exceeds that
sum. -/
theorem spec_C9 (f : Func) (p : Nat) (s : Int)
    (hnn : ∀ op ∈ walkF f, isGetRefk op = true → 0 ≤ op.footprint)
    (hinv : specDistinctSum f p ≤ s) :
    getAllocGetRefTotalSize f p ≤ s := by
  refine le_trans ?_ hinv
  unfold getAllocGetRefTotalSize specDistinctSum
  exact totalGo_le_specGo p (walkF f) [] [] hnn (by simp)

/-- Witness for `spec_C9` at a concrete input. -/
theorem wit_C9 : getAllocGetRefTotalSize exA 1 ≤ 64 :=
  spec_C9 exA 1 64 (by decide) (by decide)

/-- C9 (counterexample): `exC9` satisfies every precondition of the
compaction rule (rank-1 byte pool of constant size 1, one getref), yet
`usedBytes = 2` exceeds `pool.sizeBytes = 1`, so the claim that the
assertion is valid under those preconditions fails; the rule aborts. -/
theorem cex_C9 :
    getAllocGetRefNum exC9 1 = 1 ∧
    getAllocGetRefTotalSize exC9 1 = 2 ∧
    ¬getAllocGetRefTotalSize exC9 1 ≤ 1 ∧
    krnlCompactStaticMemoryPools exC9 exC9alloc 100 = .assertFail := by
  exact ⟨by decide, by decide, by decide, rfl⟩

/-- C1: a candidate pair that survives the pre-filters (the candidate is
not already an accepted reuser and does not already share the first
getref's offset) is accepted — its whole co-located group is appended to
the valid slot reusers — exactly when the expanded groups' uses are
mutually disjoint and their live ranges do not intersect; otherwise the
reuser list is left unchanged.  Already-accepted reusers are preserved by
every later iteration, and every accepted reuser is redirected to the
first getref's memory pool and offset. -/
theorem spec_C1 (f : Func) (first : TOp) (vs : List TOp) (c : TOp)
    (cands : List TOp)
    (h1 : vs.any (fun r => r.id == c.id) = false)
    (h2 : (first.offsetOp == c.offsetOp) = false) :
    processCandidate f first vs c =
      (if getRefUsesAreMutuallyDisjoint f
            (getAllGetRefWithSameOffset f first ++ vs)
            (getAllGetRefWithSameOffset f c) &&
          !checkLiveRangesIntersect f
            (getAllGetRefWithSameOffset f first ++ vs)
            (getAllGetRefWithSameOffset f c)
        then vs ++ getAllGetRefWithSameOffset f c
        else vs) ∧
    (∀ r ∈ vs, r ∈ processCandidate f first vs c) ∧
    (∀ t ∈ mergeRedirects f first cands,
      t.2.1 = first.mempoolOp ∧ t.2.2 = first.offsetOp) := by
  refine ⟨?_, ?_, ?_⟩
  · simp only [processCandidate, h1, Bool.false_eq_true, if_false, h2]
    cases hX : getRefUsesAreMutuallyDisjoint f
        (getAllGetRefWithSameOffset f first ++ vs)
        (getAllGetRefWithSameOffset f c) with
    | false => simp [hX]
    | true =>
        cases hY : checkLiveRangesIntersect f
            (getAllGetRefWithSameOffset f first ++ vs)
            (getAllGetRefWithSameOffset f c) with
        | false => simp [hX, hY]
        | true => simp [hX, hY]
  · intro r hr
    simp only [processCandidate]
    split
    · exact hr
    · split
      · exact hr
      · split
        · exact hr
        · split
          · exact hr
          · exact List.mem_append_left _ hr
  · intro t ht
    unfold mergeRedirects at ht
    obtain ⟨r, _, rfl⟩ := List.mem_map.mp ht
    exact ⟨rfl, rfl⟩

/-- Witness for `spec_C1` at a concrete input. -/
theorem wit_C1 :
    processCandidate exA exAg10 [] exAg11 =
      (if getRefUsesAreMutuallyDisjoint exA
            (getAllGetRefWithSameOffset exA exAg10 ++ [])
            (getAllGetRefWithSameOffset exA exAg11) &&
          !checkLiveRangesIntersect exA
            (getAllGetRefWithSameOffset exA exAg10 ++ [])
            (getAllGetRefWithSameOffset exA exAg11)
        then [] ++ getAllGetRefWithSameOffset exA exAg11
        else []) ∧
    (∀ r ∈ ([] : List TOp), r ∈ processCandidate exA exAg10 [] exAg11) ∧
    (∀ t ∈ mergeRedirects exA exAg10 [],
      t.2.1 = exAg10.mempoolOp ∧ t.2.2 = exAg10.offsetOp) :=
  spec_C1 exA exAg10 [] exAg11 [] (by decide) (by decide)

/-- C2: on `exA` (a 64-byte pool with distinct slot groups at offset
values 2 and 3) the compaction rule fires, but
`getAllDistinctGetRefsForAlloc` returns only the first group — its
offset-comparison `op.offset() == op.offset()` is a tautology — so only
getref 10 is re-emitted at the fresh offset 101; getref 11 keeps its old
offset value 3 and is never re-emitted, contrary to the claim that every
distinct group is assigned a new contiguous offset with one view re-bound
per old slot. -/
theorem thm_C2 :
    krnlCompactStaticMemoryPools exA exAalloc 100 = .rewritten exAh ∧
    (getAllDistinctGetRefsForAlloc exA 1).map TOp.id = [10] ∧
    getAllocGetRefTotalSize exA 1 = 32 ∧
    (opById exAh 1).map TOp.kind = some (.alloc 32) ∧
    (opById exAh 10).map TOp.offsetOp = some 101 ∧
    (opById exAh 11).map TOp.offsetOp = some 3 := by
  exact ⟨rfl, by decide, by decide, by decide, by decide, by decide⟩

/-- C4: in `exA`, getrefs 10 and 11 use pool 1 at different offsets, so
the claim requires one representative per offset; the function returns
only `[10]`, because its dedup test compares a candidate's offset with
itself. -/
theorem thm_C4 :
    (getAllDistinctGetRefsForAlloc exA 1).map TOp.id = [10] ∧
    exAg10.mempoolOp = 1 ∧ exAg11.mempoolOp = 1 ∧
    exAg10.offsetOp ≠ exAg11.offsetOp ∧
    exAg10 ∈ walkF exA ∧ exAg11 ∈ walkF exA := by
  decide

/-- C5: in `exF5`, pool 2's getref at the shared offset constant walks
first and is recorded as seen, so pool 1's only getref (footprint 16) is
suppressed by the offset-only dedup test and contributes nothing: the
total for pool 1 is 0 instead of 16, contrary to the claim that slots of
other pools suppress nothing. -/
theorem thm_C5 :
    getAllocGetRefTotalSize exF5 1 = 0 ∧ specDistinctSum exF5 1 = 16 := by
  decide

/-- C7: getref 10 of `exF7` has no load or store; the live-range last
operation is null (`none`), and the source then dereferences it
unconditionally (`lastLoadStore->dump()`), instead of signalling an error
and skipping the slot. -/
theorem thm_C7 :
    ((walkF exF7).all (fun op => !isLoadStoreForGetRef exF7g op)) = true ∧
    getLiveRangeLastOp exF7 exF7g = none ∧
    getLiveRangeFirstOp exF7 exF7g = none := by
  exact ⟨by decide, rfl, rfl⟩

/-- C8: compaction succeeds on pool 1 of `exF8` (usedBytes 8 < declared
64, miscounted because pool 2's getref at the shared offset constant
suppresses pool 1's 16-byte group), shrinking the pool to 8 bytes; in the
rewritten function the total for the new pool is 24 ≠ 8, and the second
run hits the assertion instead of making no change — compaction is not
idempotent. -/
theorem thm_C8 :
    krnlCompactStaticMemoryPools exF8 exF8alloc 100 = .rewritten exF8h ∧
    (opById exF8h 1).map TOp.kind = some (.alloc 8) ∧
    getAllocGetRefTotalSize exF8h 1 = 24 ∧
    krnlCompactStaticMemoryPools exF8h exF8halloc 200 = .assertFail := by
  exact ⟨rfl, by decide, by decide, rfl⟩

end MemPool
